import Mathlib

/-!
Verification development for the concurrent hash table in
`src/hotspot/share/utilities/concurrentHashTable.inline.hpp`.

The imperative, template-parameterized C++ is embedded shallowly:

* a bucket chain becomes a `List Nat` of stored values;
* the per-instantiation callback `CONFIG::get_hash(value, &is_dead)`
  becomes a function `Nat → Nat × Bool` packaged in `Cfg`;
* pointer surgery on chains (`release_assign_node_ptr` and friends)
  becomes functional list transformation whose result is the chain the
  surgery leaves behind;
* side effects the claims talk about (global write synchronization,
  delete callbacks, node destruction, unlink and relink of nodes)
  are recorded as explicit event traces;
* the whole-table state (`_table`, `_log2_start_size`,
  `_log2_size_limit`, `_size_limit_reached`) becomes the record `CHT`,
  with the resize mutex modelled as uncontended (the claims under
  study are about the sequential effect of each operation).
-/

/-- The per-instantiation configuration of the table:
`CONFIG::get_hash(value, &is_dead)` returns the hash of a value
together with the flag telling whether the value is dead. -/
structure Cfg where
  get_hash : Nat → Nat × Bool

/-- The index computation `bucket_idx_hash(table, hash)`:
`hash & _hash_mask` for a table of `size` buckets, which for a
power-of-two `size` is `hash % size`. -/
def bucket_idx_hash (size hash : Nat) : Nat :=
  hash % size

/-- The chain walk of `get_node(bucket, lookup_f, have_dead, loops)`.
The lookup is a function returning, for a value, the pair
`(equals, is_dead)` produced by `lookup_f.equals(value, &is_dead)`.
Arguments: the incoming contents of `*have_dead`, then the chain.
Result: the found node (if any), the final loop count `*loops`, and
the outgoing contents of `*have_dead`. -/
def get_node (equals : Nat → Bool × Bool) : Bool → List Nat → Option Nat × Nat × Bool
  | have_dead, [] => (none, 0, have_dead)
  | have_dead, v :: rest =>
    if (equals v).1 then
      (some v, 1, have_dead)
    else
      let r := get_node equals (if (equals v).2 && !have_dead then true else have_dead) rest
      (r.1, r.2.1 + 1, r.2.2)

/-- The loop body of `unzip_bucket`: one node at a time, a dead node is
spliced out of both sibling chains (and destroyed), a live node is kept
on the chain of `bucket_idx_hash(new_table, hash)`, and a hash matching
neither sibling hits `fatal(...)`, modelled as `none`.  Result: the
even-sibling chain, the odd-sibling chain, and the destroyed nodes. -/
def unzip_chain (cfg : Cfg) (new_size even_index odd_index : Nat) :
    List Nat → Option (List Nat × List Nat × List Nat)
  | [] => some ([], [], [])
  | v :: rest =>
    let h := cfg.get_hash v
    if h.2 then
      match unzip_chain cfg new_size even_index odd_index rest with
      | none => none
      | some (e, o, d) => some (e, o, v :: d)
    else
      let aux_index := bucket_idx_hash new_size h.1
      if aux_index = even_index then
        match unzip_chain cfg new_size even_index odd_index rest with
        | none => none
        | some (e, o, d) => some (v :: e, o, d)
      else if aux_index = odd_index then
        match unzip_chain cfg new_size even_index odd_index rest with
        | none => none
        | some (e, o, d) => some (e, v :: o, d)
      else
        none

/-- `unzip_bucket(thread, old_table, new_table, even_index, odd_index)`
applied to the chain of old bucket `even_index`.  An empty bucket does
nothing and returns `false`; otherwise the chain is distributed and the
call returns `true`.  The boolean is paired with the resulting sibling
chains and the list of destroyed (dead) nodes. -/
def unzip_bucket (cfg : Cfg) (new_size even_index odd_index : Nat) (chain : List Nat) :
    Option ((List Nat × List Nat × List Nat) × Bool) :=
  match chain with
  | [] => some (([], [], []), false)
  | _ => (unzip_chain cfg new_size even_index odd_index chain).map (fun r => (r, true))

/-- Modelled from the spec: the constant `BULK_DELETE_LIMIT` is declared
in the header `concurrentHashTable.hpp`, which is not part of the
sources; the spec fixes it as a small constant with reference value
256. -/
def BULK_DELETE_LIMIT : Nat := 256

/-- The loop of `delete_check_nodes(bucket, eval_f, num_del, ndel)`,
carrying the running `dels` counter.  A matching node is appended to
`ndel` and spliced out; the loop breaks once `dels == num_del`.
Result: the collected `ndel` array and the chain left in the bucket. -/
def delete_check_nodes_go (eval : Nat → Bool) (num_del : Nat) :
    Nat → List Nat → List Nat × List Nat
  | _, [] => ([], [])
  | dels, v :: rest =>
    if eval v then
      if dels + 1 = num_del then
        ([v], rest)
      else
        let r := delete_check_nodes_go eval num_del (dels + 1) rest
        (v :: r.1, r.2)
    else
      let r := delete_check_nodes_go eval num_del dels rest
      (r.1, v :: r.2)

/-- `delete_check_nodes(bucket, eval_f, num_del, ndel)`: unlink and
collect up to `num_del` matching nodes from the chain. -/
def delete_check_nodes (eval : Nat → Bool) (num_del : Nat) (chain : List Nat) :
    List Nat × List Nat :=
  delete_check_nodes_go eval num_del 0 chain

/-- `HaveDeletables::have_deletable(bucket, eval_f, prefetch)`: both the
pointer and the non-pointer instantiation answer whether some node of
the chain matches the evaluator (prefetching is only a speed hint). -/
def have_deletable (eval : Nat → Bool) (chain : List Nat) : Bool :=
  chain.any eval

/-- The per-bucket work of `do_bulk_delete_locked_for(thread, start_idx,
stop_idx, eval_f, del_f, is_mt)` on the listed bucket chains: a bucket
with no deletable node is skipped, otherwise `delete_check_nodes` runs
once with `BULK_DELETE_LIMIT`, and the unlinked nodes are destroyed.
Result: the bucket chains after the pass and the deleted values. -/
def do_bulk_delete_locked_for (eval : Nat → Bool) : List (List Nat) → List (List Nat) × List Nat
  | [] => ([], [])
  | c :: rest =>
    let b :=
      if have_deletable eval c then
        let r := delete_check_nodes eval BULK_DELETE_LIMIT c
        (r.2, r.1)
      else
        (c, [])
    let rr := do_bulk_delete_locked_for eval rest
    (b.1 :: rr.1, b.2 ++ rr.2)

/-- Whole-table state of `ConcurrentHashTable`: the published table is
its `log2_size` plus the bucket chains, next to `_log2_start_size`,
`_log2_size_limit` and `_size_limit_reached`. -/
structure CHT where
  log2_size : Nat
  buckets : List (List Nat)
  log2_start_size : Nat
  log2_size_limit : Nat
  size_limit_reached : Bool
deriving DecidableEq

/-- The loop of `internal_grow_range(thread, start, stop)`: bucket
`even_index` of the old table is unzipped into new buckets
`even_index` and `even_index + old_size`.  Result: the even-sibling
buckets, the odd-sibling buckets, and all destroyed nodes. -/
def grow_ranges (cfg : Cfg) (old_size : Nat) :
    Nat → List (List Nat) → Option (List (List Nat) × List (List Nat) × List Nat)
  | _, [] => some ([], [], [])
  | even_index, c :: rest =>
    match unzip_bucket cfg (2 * old_size) even_index (even_index + old_size) c with
    | none => none
    | some (r, _) =>
      match grow_ranges cfg old_size (even_index + 1) rest with
      | none => none
      | some (es, os, ds) => some (r.1 :: es, r.2.1 :: os, r.2.2 ++ ds)

/-- `internal_grow(thread, log2_size)`: the prolog fails (returning
`false` with the table untouched) when the size limit was reached or
the current `log2_size` already meets the request; otherwise the table
is doubled through `internal_grow_range` and the epilog publishes the
new table.  The resize mutex is modelled as uncontended. -/
def internal_grow (cfg : Cfg) (s : CHT) (log2_size : Nat) : Option (CHT × Bool) :=
  if s.size_limit_reached then some (s, false)
  else if log2_size ≤ s.log2_size then some (s, false)
  else
    match grow_ranges cfg (2 ^ s.log2_size) 0 s.buckets with
    | none => none
    | some (es, os, _) =>
      some ({ s with
                log2_size := s.log2_size + 1,
                buckets := es ++ os,
                size_limit_reached := s.log2_size + 1 = s.log2_size_limit }, true)

/-- `grow(thread, size_limit_log2)`: a zero request is replaced by
`_log2_size_limit` before calling `internal_grow`. -/
def grow (cfg : Cfg) (s : CHT) (size_limit_log2 : Nat) : Option (CHT × Bool) :=
  internal_grow cfg s (if size_limit_log2 = 0 then s.log2_size_limit else size_limit_log2)

/-- `internal_shrink(thread, log2_size)`: the prolog refuses (returning
`false` with the table untouched) when the current size sits at
`_log2_start_size` or already at or below the request; otherwise the
table is halved, each new bucket receiving the even-sibling chain with
the odd-sibling chain appended (`release_assign_last_node_next`), and
the epilog clears `_size_limit_reached`. -/
def internal_shrink (s : CHT) (log2_size : Nat) : CHT × Bool :=
  if s.log2_size = s.log2_start_size ∨ s.log2_size ≤ log2_size then
    (s, false)
  else
    ({ s with
         log2_size := s.log2_size - 1,
         buckets := (List.range (2 ^ (s.log2_size - 1))).map
           (fun i => s.buckets.getD i [] ++ s.buckets.getD (i + 2 ^ (s.log2_size - 1)) []),
         size_limit_reached := false }, true)

/-- `shrink(thread, size_limit_log2)`: a zero request is replaced by
`_log2_start_size` before calling `internal_shrink`. -/
def shrink (s : CHT) (size_limit_log2 : Nat) : CHT × Bool :=
  internal_shrink s (if size_limit_log2 = 0 then s.log2_start_size else size_limit_log2)

/-- A configuration whose hash is the identity and in which no value is
ever dead. -/
def cfg_id : Cfg :=
  ⟨fun v => (v, false)⟩

/-- A concrete empty table: published `log2_size` 5 (32 buckets),
start size 5, size limit 7, limit not reached. -/
def cht_5_7 : CHT :=
  ⟨5, List.replicate 32 [], 5, 7, false⟩

/-- The observable steps of `internal_remove`, in program order:
splicing the matching node out of the chain, the global
`write_synchronize`, the deleter callback on the value, and
`Node::destroy_node`. -/
inductive RemoveEvent where
  | splice (v : Nat)
  | global_sync
  | delete_callback (v : Nat)
  | destroy (v : Nat)
deriving DecidableEq

/-- `internal_remove(thread, lookup_f, delete_f)` on a bucket chain:
walk the chain, splice out the first node the lookup matches, unlock,
and if a node was found run `write_synchronize`, the deleter and
`destroy_node`, in that order.  Result: the return value, the chain
left in the bucket, and the event trace. -/
def internal_remove (equals : Nat → Bool) : List Nat → Bool × List Nat × List RemoveEvent
  | [] => (false, [], [])
  | v :: rest =>
    if equals v then
      (true, rest, [.splice v, .global_sync, .delete_callback v, .destroy v])
    else
      let r := internal_remove equals rest
      (r.1, v :: r.2.1, r.2.2)

/-- The head word of a `Bucket`: the node pointer together with the two
low state bits `STATE_LOCK_BIT` and `STATE_REDIRECT_BIT`. -/
structure BucketState where
  ptr : Nat
  lock : Bool
  redirect : Bool
deriving DecidableEq

/-- The head-word operations of `Bucket`.  `cas_first` carries the new
node and the expected (state-free) head; `release_assign` is
`release_assign_node_ptr` applied to the head slot. -/
inductive BucketOp where
  | trylock
  | unlock
  | redirect
  | cas_first (node expect : Nat)
  | release_assign (node : Nat)
deriving DecidableEq

/-- One bucket-header operation.  `trylock` fails (leaving the word
unchanged) when the lock bit is set or when the compare of the raw word
against the state-free expected value fails, which is the case whenever
the redirect bit is set.  `unlock` asserts `is_locked()` and
`!have_redirect()` and release-stores the state-free head.  `redirect`
asserts `is_locked()` and sets the redirect bit on top of the current
word.  `cas_first` fails when locked or when the raw word differs from
the expected clean pointer.  `release_assign` asserts `is_locked()` and
replaces the pointer, preserving the state bits.  An operation whose
assertion fails is `none`. -/
def bucketStep (s : BucketState) : BucketOp → Option BucketState
  | .trylock => some (if s.lock ∨ s.redirect then s else { s with lock := true })
  | .unlock => if s.lock ∧ ¬s.redirect then some ⟨s.ptr, false, false⟩ else none
  | .redirect => if s.lock then some { s with redirect := true } else none
  | .cas_first n e =>
    some (if ¬s.lock ∧ ¬s.redirect ∧ s.ptr = e then { s with ptr := n } else s)
  | .release_assign n => if s.lock then some { s with ptr := n } else none

/-- A sequence of bucket-header operations, each satisfying its
assertions. -/
def bucketRun : BucketState → List BucketOp → Option BucketState
  | s, [] => some s
  | s, op :: rest =>
    match bucketStep s op with
    | none => none
    | some t => bucketRun t rest

/-- The observable steps of `write_synchonize_on_visible_epoch`:
the release store of the calling thread into `_invisible_epoch` and
the call of `GlobalCounter::write_synchronize`. -/
inductive SyncEvent where
  | store_epoch (t : Nat)
  | global_sync
deriving DecidableEq

/-- `write_synchonize_on_visible_epoch(thread)` as a function of the
current `_invisible_epoch` (`none` is the C++ null).  When the epoch
already equals the thread, the call returns at once; otherwise it
stores the thread into the epoch and then invokes the global
`write_synchronize`.  Result: the new epoch and the event trace. -/
def write_synchonize_on_visible_epoch (thread : Nat) (invisible_epoch : Option Nat) :
    Option Nat × List SyncEvent :=
  if invisible_epoch = some thread then
    (invisible_epoch, [])
  else
    (some thread, [.store_epoch thread, .global_sync])

/-- The constructor of `ScopedCS`: after entering the critical section
it null-stores `_invisible_epoch` whenever it observes it non-null. -/
def scopedCS_begin (invisible_epoch : Option Nat) : Option Nat :=
  if invisible_epoch ≠ none then none else invisible_epoch

/-- The debug assertion loop of `internal_grow_epilog` and
`internal_shrink_epilog`:
`for (i = 0; i < size; i++) assert(get_bucket(i++)->first() == POISON)`.
The returned list holds the bucket indices the loop examines: the body
uses `i` and post-increments it, and the loop header increments it
again. -/
def epilogAssertLoop (size i : Nat) : List Nat :=
  if h : i < size then
    i :: epilogAssertLoop size (i + 1 + 1)
  else
    []
termination_by size - i
decreasing_by omega

/-- The observable steps of `try_move_nodes_to(thread, to_cht)`:
unlinking a node from its source bucket via `cas_first`, linking it
into a destination bucket via `cas_first`, and `Node::destroy_node`
(which the function never performs). -/
inductive MoveEvent where
  | unlink (v : Nat)
  | link_dest (bucket v : Nat)
  | destroy (v : Nat)
deriving DecidableEq

/-- The inner loop of `try_move_nodes_to` on one source bucket: pop the
first node, and when its hash is not dead push it onto the front of
destination bucket `bucket_idx_hash(dest, hash)`; a dead node is merely
dropped.  The destination table is a function from bucket index to
chain.  Result: the destination after the drain and the event trace. -/
def try_move_chain (cfg : Cfg) (dest_size : Nat) :
    (Nat → List Nat) → List Nat → (Nat → List Nat) × List MoveEvent
  | dest, [] => (dest, [])
  | dest, v :: rest =>
    let h := cfg.get_hash v
    if h.2 then
      let r := try_move_chain cfg dest_size dest rest
      (r.1, .unlink v :: r.2)
    else
      let i := bucket_idx_hash dest_size h.1
      let r := try_move_chain cfg dest_size (fun j => if j = i then v :: dest j else dest j) rest
      (r.1, .unlink v :: .link_dest i v :: r.2)

/-- `try_move_nodes_to(thread, to_cht)`: every source bucket is drained
in order into the destination table. -/
def try_move_nodes_to (cfg : Cfg) (dest_size : Nat) :
    (Nat → List Nat) → List (List Nat) → (Nat → List Nat) × List MoveEvent
  | dest, [] => (dest, [])
  | dest, c :: rest =>
    let r1 := try_move_chain cfg dest_size dest c
    let r2 := try_move_nodes_to cfg dest_size r1.1 rest
    (r2.1, r1.2 ++ r2.2)

/-- A concrete table at the shrink floor: published `log2_size` 10,
start size 10, limit 12. -/
def cht_shrink_floor : CHT :=
  ⟨10, List.replicate 1024 [], 10, 12, false⟩

/-- The bulk-delete evaluator of scenario S5: select odd values. -/
def odd_eval (v : Nat) : Bool :=
  v % 2 == 1

/-- A bucket chain of 257 odd values, one more than
`BULK_DELETE_LIMIT`. -/
def odd_chain_257 : List Nat :=
  (List.range 257).map (fun k => 2 * k + 1)

/-- A configuration with identity hash in which exactly the value 99 is
dead. -/
def cfg_dead99 : Cfg :=
  ⟨fun v => (v, v == 99)⟩

/-- A configuration with identity hash in which exactly the value 4 is
dead. -/
def cfg_dead4 : Cfg :=
  ⟨fun v => (v, v == 4)⟩

/-- An empty destination table. -/
def dest_empty : Nat → List Nat :=
  fun _ => []

/-- C9: `get_node` returns the first node of the chain the lookup
matches (or null), reports in `*loops` the number of nodes examined
including the match, and sets `*have_dead` only for a dead node seen
strictly before the first match: the `equals` test breaks out of the
loop before the `is_dead` flag of the matching node is inspected, so
the dead status of the match itself is never recorded. -/
theorem get_node_spec (equals : Nat → Bool × Bool) (have_dead : Bool) (chain : List Nat) :
    get_node equals have_dead chain =
      (chain.find? (fun v => (equals v).1),
       (chain.takeWhile (fun v => !(equals v).1)).length +
         (if chain.any (fun v => (equals v).1) then 1 else 0),
       have_dead || (chain.takeWhile (fun v => !(equals v).1)).any (fun v => (equals v).2)) := by
  induction chain generalizing have_dead with
  | nil => simp [get_node]
  | cons v rest ih =>
    by_cases h : (equals v).1 = true
    · simp [get_node, h, List.find?_cons, List.takeWhile_cons]
    · have h' : (equals v).1 = false := by
        cases hv : (equals v).1
        · rfl
        · exact absurd hv h
      have hd : (if (equals v).2 && !have_dead then true else have_dead)
          = (have_dead || (equals v).2) := by
        cases hv : (equals v).2 <;> cases have_dead <;> simp
      simp only [get_node, h', if_false, Bool.false_eq_true, ite_false, hd, ih,
        List.find?_cons, List.takeWhile_cons, List.any_cons]
      simp [h', Bool.or_assoc, Nat.add_left_comm, Nat.add_comm]

theorem internal_remove_eq (equals : Nat → Bool) (chain : List Nat) :
    internal_remove equals chain =
      (chain.any equals, chain.eraseP equals,
       match chain.find? equals with
       | some v => [RemoveEvent.splice v, .global_sync, .delete_callback v, .destroy v]
       | none => []) := by
  induction chain with
  | nil => simp [internal_remove]
  | cons v rest ih =>
    by_cases h : equals v = true
    · simp [internal_remove, h, List.eraseP_cons, List.find?_cons]
    · have h' : equals v = false := by
        cases hv : equals v
        · rfl
        · exact absurd hv h
      simp [internal_remove, h', List.eraseP_cons, List.find?_cons, ih]

/-- C4: `internal_remove` returns true exactly when the bucket chain
holds a node the lookup matches; in that case the matching node is
spliced out of the chain and the trace shows, in order, the splice, the
global `write_synchronize`, the deleter callback, and the destruction
of the node; on a miss the chain is unchanged and no deleter runs. -/
theorem internal_remove_spec (equals : Nat → Bool) (chain : List Nat) :
    ((internal_remove equals chain).1 = true ↔ ∃ v ∈ chain, equals v = true) ∧
    (∀ v, chain.find? equals = some v →
      internal_remove equals chain =
        (true, chain.eraseP equals,
         [RemoveEvent.splice v, .global_sync, .delete_callback v, .destroy v])) ∧
    ((internal_remove equals chain).1 = false →
      (internal_remove equals chain).2.1 = chain ∧ (internal_remove equals chain).2.2 = []) := by
  refine ⟨?_, ?_, ?_⟩
  · rw [internal_remove_eq]
    simp [List.any_eq_true]
  · intro v hv
    rw [internal_remove_eq, hv]
    have hmem := List.mem_of_find?_eq_some hv
    have hp : equals v = true := List.find?_some hv
    have hany : chain.any equals = true := List.any_eq_true.mpr ⟨v, hmem, hp⟩
    rw [hany]
  · intro h
    rw [internal_remove_eq] at h
    simp only at h
    have hall : ∀ a ∈ chain, ¬ equals a = true := by
      intro a ha hpa
      have : chain.any equals = true := List.any_eq_true.mpr ⟨a, ha, hpa⟩
      rw [h] at this
      exact Bool.false_ne_true this
    constructor
    · rw [internal_remove_eq]
      exact List.eraseP_of_forall_not hall
    · rw [internal_remove_eq]
      have : chain.find? equals = none := List.find?_eq_none.mpr hall
      rw [this]

theorem internal_remove_spec_witness :
    internal_remove (fun v => v == 2) [1, 2, 3] =
      (true, [1, 3],
       [RemoveEvent.splice 2, .global_sync, .delete_callback 2, .destroy 2]) :=
  ((internal_remove_spec (fun v => v == 2) [1, 2, 3]).2.1 2 (by decide)).trans (by decide)

/-- C5: `shrink` refuses to shrink below the start size: when the
published `log2_size` equals `_log2_start_size`, or is already at or
below the requested size, `shrink` returns false and the table (its
size and its bucket contents) is unchanged. -/
theorem shrink_refuses_below_floor (s : CHT) (size_limit_log2 : Nat)
    (h : s.log2_size = s.log2_start_size ∨
         s.log2_size ≤ (if size_limit_log2 = 0 then s.log2_start_size else size_limit_log2)) :
    shrink s size_limit_log2 = (s, false) := by
  simp only [shrink, internal_shrink, if_pos h]

theorem shrink_refuses_below_floor_witness :
    shrink cht_shrink_floor 9 = (cht_shrink_floor, false) :=
  shrink_refuses_below_floor cht_shrink_floor 9 (by decide)

/-- C7: for the resize-lock holder `t`, the call invokes the global
`write_synchronize` exactly when `_invisible_epoch` differs from `t` at
entry, in which case the trace shows the store of `t` into the epoch
before the synchronize; constructing a `ScopedCS` nulls the epoch;
hence the second of two consecutive calls by `t` performs no global
synchronize, while a `ScopedCS` built in between forces the next call
to perform one. -/
theorem write_synchonize_visible_epoch_spec (t : Nat) (e : Option Nat) :
    ((write_synchonize_on_visible_epoch t e).2 = [] ↔ e = some t) ∧
    (e ≠ some t →
      (write_synchonize_on_visible_epoch t e).2 = [.store_epoch t, .global_sync] ∧
      (write_synchonize_on_visible_epoch t e).1 = some t) ∧
    scopedCS_begin e = none ∧
    (write_synchonize_on_visible_epoch t (write_synchonize_on_visible_epoch t e).1).2 = [] ∧
    (write_synchonize_on_visible_epoch t
        (scopedCS_begin (write_synchonize_on_visible_epoch t e).1)).2
      = [.store_epoch t, .global_sync] := by
  have hscope : ∀ x : Option Nat, scopedCS_begin x = none := by
    intro x
    cases x <;> simp [scopedCS_begin]
  by_cases h : e = some t
  · subst h
    simp [write_synchonize_on_visible_epoch, hscope]
  · simp [write_synchonize_on_visible_epoch, hscope, h]

theorem write_synchonize_visible_epoch_spec_witness :
    (write_synchonize_on_visible_epoch 0 none).2 = [.store_epoch 0, .global_sync] ∧
    (write_synchonize_on_visible_epoch 0 (write_synchonize_on_visible_epoch 0 none).1).2 = [] :=
  ⟨((write_synchonize_visible_epoch_spec 0 none).2.1 (by decide)).1,
   (write_synchonize_visible_epoch_spec 0 none).2.2.2.1⟩

theorem mem_epilogAssertLoop (size i j : Nat) :
    j ∈ epilogAssertLoop size i ↔ (i ≤ j ∧ j < size ∧ (j - i) % 2 = 0) := by
  rw [epilogAssertLoop]
  split
  · next h =>
    rw [List.mem_cons, mem_epilogAssertLoop size (i + 1 + 1) j]
    omega
  · next h =>
    simp only [List.not_mem_nil, false_iff]
    omega
termination_by size - i
decreasing_by omega

/-- C8: the debug assertion loop of the grow and shrink epilogs
increments the bucket index twice per iteration (once in the loop
header and once at the `get_bucket` call), so the poison-pattern check
examines exactly the even-indexed buckets of the retired old table and
skips the others. -/
theorem epilog_assert_checks_even_only (size j : Nat) :
    j ∈ epilogAssertLoop size 0 ↔ (j < size ∧ j % 2 = 0) := by
  rw [mem_epilogAssertLoop]
  omega

theorem epilog_assert_checks_even_only_witness :
    2 ∈ epilogAssertLoop 4 0 ∧ 1 ∉ epilogAssertLoop 4 0 :=
  ⟨(epilog_assert_checks_even_only 4 2).mpr (by decide),
   fun h => absurd ((epilog_assert_checks_even_only 4 1).mp h) (by decide)⟩

theorem bucketStep_preserves_redirect {s t : BucketState} {op : BucketOp}
    (h : bucketStep s op = some t) (hr : s.redirect = true) : t.redirect = true := by
  cases op with
  | trylock =>
    simp only [bucketStep, hr, Bool.true_eq, or_true, if_true, Option.some.injEq] at h
    rw [← h]
    exact hr
  | unlock =>
    simp [bucketStep, hr] at h
  | redirect =>
    simp only [bucketStep] at h
    split at h
    · cases h
      rfl
    · cases h
  | cas_first n e =>
    simp only [bucketStep, Option.some.injEq] at h
    split at h
    · next hc => exact absurd hr hc.2.1
    · rw [← h]
      exact hr
  | release_assign n =>
    simp only [bucketStep] at h
    split at h
    · cases h
      exact hr
    · cases h

theorem bucketRun_preserves_redirect (ops : List BucketOp) :
    ∀ s t : BucketState, bucketRun s ops = some t → s.redirect = true → t.redirect = true := by
  induction ops with
  | nil =>
    intro s t h hr
    simp only [bucketRun, Option.some.injEq] at h
    rw [← h]
    exact hr
  | cons op rest ih =>
    intro s t h hr
    simp only [bucketRun] at h
    cases hs : bucketStep s op with
    | none =>
      rw [hs] at h
      cases h
    | some u =>
      rw [hs] at h
      exact ih u t h (bucketStep_preserves_redirect hs hr)

/-- C6: the redirect state of a bucket head word is terminal: along any
sequence of bucket-header operations whose assertions hold (redirect
only while locked, unlock only when not redirected), once the redirect
bit is set no later operation clears it; and the redirect operation
itself leaves the lock bit set. -/
theorem bucket_redirect_terminal (s : BucketState) :
    (∀ ops t, bucketRun s ops = some t → s.redirect = true → t.redirect = true) ∧
    (∀ t, bucketStep s .redirect = some t → t.lock = true ∧ t.redirect = true) := by
  refine ⟨fun ops t h hr => bucketRun_preserves_redirect ops s t h hr, fun t h => ?_⟩
  simp only [bucketStep] at h
  split at h
  · next hl =>
    cases h
    exact ⟨hl, rfl⟩
  · cases h

theorem bucket_redirect_terminal_witness :
    (⟨2, true, true⟩ : BucketState).redirect = true ∧
    ((⟨7, true, true⟩ : BucketState).lock = true ∧ (⟨7, true, true⟩ : BucketState).redirect = true) :=
  ⟨(bucket_redirect_terminal ⟨5, true, true⟩).1 [.trylock, .cas_first 3 5, .release_assign 2]
      ⟨2, true, true⟩ (by decide) rfl,
   (bucket_redirect_terminal ⟨7, true, false⟩).2 ⟨7, true, true⟩ (by decide)⟩

theorem mod_two_mul_cases (h m : Nat) (hm : 0 < m) :
    h % (2 * m) = h % m ∨ h % (2 * m) = h % m + m := by
  have h1 : h % (2 * m) % m = h % m := by
    rw [mul_comm 2 m]
    exact Nat.mod_mul_right_mod h m 2
  have h2 : h % (2 * m) < 2 * m := Nat.mod_lt _ (by omega)
  rcases Nat.lt_or_ge (h % (2 * m)) m with hlt | hge
  · left
    rw [Nat.mod_eq_of_lt hlt] at h1
    exact h1
  · right
    have hx : h % (2 * m) % m = (h % (2 * m) - m) % m := Nat.mod_eq_sub_mod hge
    have hlt2 : h % (2 * m) - m < m := by omega
    rw [Nat.mod_eq_of_lt hlt2] at hx
    omega

theorem filter_perm_of_partition {α : Type} (p q r : α → Bool) (l : List α)
    (h1 : ∀ a ∈ l, r a = (p a || q a)) (h2 : ∀ a ∈ l, !(p a && q a)) :
    (l.filter p ++ l.filter q).Perm (l.filter r) := by
  induction l with
  | nil => simp
  | cons a t ih =>
    have ihr := ih (fun b hb => h1 b (List.mem_cons_of_mem a hb))
      (fun b hb => h2 b (List.mem_cons_of_mem a hb))
    have ha1 := h1 a (List.mem_cons_self a t)
    have ha2 := h2 a (List.mem_cons_self a t)
    by_cases hp : p a = true
    · have hq : q a = false := by
        cases hqv : q a
        · rfl
        · rw [hp, hqv] at ha2
          cases ha2
      have hr : r a = true := by rw [ha1, hp, Bool.true_or]
      simp only [List.filter_cons, hp, hq, hr, if_true, if_false, List.cons_append]
      simp only [Bool.false_eq_true, if_false]
      exact ihr.cons a
    · have hp' : p a = false := by
        cases hpv : p a
        · rfl
        · exact absurd hpv hp
      by_cases hq : q a = true
      · have hr : r a = true := by rw [ha1, hq, Bool.or_true]
        simp only [List.filter_cons, hp', hq, hr, if_true, Bool.false_eq_true, if_false]
        exact List.perm_middle.trans (ihr.cons a)
      · have hq' : q a = false := by
          cases hqv : q a
          · rfl
          · exact absurd hqv hq
        have hr : r a = false := by rw [ha1, hp', hq', Bool.or_self]
        simp only [List.filter_cons, hp', hq', hr, Bool.false_eq_true, if_false]
        exact ihr

theorem unzip_chain_eq (cfg : Cfg) (old_size even_index : Nat) (hm : 0 < old_size) :
    ∀ chain : List Nat,
      (∀ v ∈ chain, (cfg.get_hash v).2 = false →
        (cfg.get_hash v).1 % old_size = even_index) →
      unzip_chain cfg (2 * old_size) even_index (even_index + old_size) chain =
        some (chain.filter (fun v => !(cfg.get_hash v).2 &&
                (bucket_idx_hash (2 * old_size) (cfg.get_hash v).1 == even_index)),
              chain.filter (fun v => !(cfg.get_hash v).2 &&
                (bucket_idx_hash (2 * old_size) (cfg.get_hash v).1 == even_index + old_size)),
              chain.filter (fun v => (cfg.get_hash v).2)) := by
  intro chain
  induction chain with
  | nil =>
    intro _
    simp [unzip_chain]
  | cons v rest ih =>
    intro hc
    have hrest := ih (fun w hw hwl => hc w (List.mem_cons_of_mem v hw) hwl)
    by_cases hd : (cfg.get_hash v).2 = true
    · simp [unzip_chain, hd, hrest, List.filter_cons]
    · have hd' : (cfg.get_hash v).2 = false := by
        cases hv : (cfg.get_hash v).2
        · rfl
        · exact absurd hv hd
      have hh := hc v (List.mem_cons_self v rest) hd'
      have hne : even_index ≠ even_index + old_size := by omega
      have hne2 : even_index + old_size ≠ even_index := by omega
      rcases mod_two_mul_cases (cfg.get_hash v).1 old_size hm with hcase | hcase
      · have hidx : bucket_idx_hash (2 * old_size) (cfg.get_hash v).1 = even_index := by
          unfold bucket_idx_hash
          rw [hcase, hh]
        simp [unzip_chain, hd', hidx, hrest, List.filter_cons, hne, beq_iff_eq]
      · have hidx : bucket_idx_hash (2 * old_size) (cfg.get_hash v).1
            = even_index + old_size := by
          unfold bucket_idx_hash
          rw [hcase, hh]
        simp [unzip_chain, hd', hidx, hrest, List.filter_cons, hne2, beq_iff_eq]

/-- C1: `unzip_bucket`, applied to a non-empty old-table bucket chain
during grow (all live nodes hash to bucket `even_index` of the old
table, the odd sibling is `even_index + old_size`, and the doubled
table has `2 * old_size` buckets), distributes exactly the live nodes:
the even sibling receives precisely the live nodes whose hash modulo
the doubled size is `even_index`, the odd sibling precisely those whose
hash modulo the doubled size is `odd_index`, the dead nodes are spliced
out of both siblings and destroyed, and the two sibling chains together
are a permutation of the live nodes, so no live node is lost or
duplicated. -/
theorem unzip_bucket_distributes (cfg : Cfg) (old_size even_index : Nat) (chain : List Nat)
    (hm : 0 < old_size) (hnil : chain ≠ [])
    (hc : ∀ v ∈ chain, (cfg.get_hash v).2 = false →
        (cfg.get_hash v).1 % old_size = even_index) :
    unzip_bucket cfg (2 * old_size) even_index (even_index + old_size) chain =
      some ((chain.filter (fun v => !(cfg.get_hash v).2 &&
               (bucket_idx_hash (2 * old_size) (cfg.get_hash v).1 == even_index)),
             chain.filter (fun v => !(cfg.get_hash v).2 &&
               (bucket_idx_hash (2 * old_size) (cfg.get_hash v).1 == even_index + old_size)),
             chain.filter (fun v => (cfg.get_hash v).2)), true) ∧
    (chain.filter (fun v => !(cfg.get_hash v).2 &&
        (bucket_idx_hash (2 * old_size) (cfg.get_hash v).1 == even_index)) ++
     chain.filter (fun v => !(cfg.get_hash v).2 &&
        (bucket_idx_hash (2 * old_size) (cfg.get_hash v).1 == even_index + old_size))).Perm
      (chain.filter (fun v => !(cfg.get_hash v).2)) := by
  constructor
  · match chain, hnil with
    | v :: rest, _ =>
      simp only [unzip_bucket]
      rw [unzip_chain_eq cfg old_size even_index hm (v :: rest) hc]
      rfl
  · apply filter_perm_of_partition
    · intro a ha
      by_cases hd : (cfg.get_hash a).2 = true
      · simp [hd]
      · have hd' : (cfg.get_hash a).2 = false := by
          cases hv : (cfg.get_hash a).2
          · rfl
          · exact absurd hv hd
        have hh := hc a ha hd'
        rcases mod_two_mul_cases (cfg.get_hash a).1 old_size hm with hcase | hcase
        · have hidx : bucket_idx_hash (2 * old_size) (cfg.get_hash a).1 = even_index := by
            unfold bucket_idx_hash
            rw [hcase, hh]
          simp [hd', hidx, beq_iff_eq]
        · have hidx : bucket_idx_hash (2 * old_size) (cfg.get_hash a).1
              = even_index + old_size := by
            unfold bucket_idx_hash
            rw [hcase, hh]
          simp [hd', hidx, beq_iff_eq]
    · intro a ha
      by_cases hd : (cfg.get_hash a).2 = true
      · simp [hd]
      · have hd' : (cfg.get_hash a).2 = false := by
          cases hv : (cfg.get_hash a).2
          · rfl
          · exact absurd hv hd
        simp only [hd', Bool.not_false, Bool.true_and, beq_iff_eq]
        by_cases he : bucket_idx_hash (2 * old_size) (cfg.get_hash a).1 = even_index
        · simp [he]
          omega
        · simp [he]

theorem unzip_bucket_distributes_witness :
    unzip_bucket cfg_dead99 (2 * 4) 1 (1 + 4) [1, 5, 99, 13, 9]
      = some (([1, 9], [5, 13], [99]), true) :=
  ((unzip_bucket_distributes cfg_dead99 4 1 [1, 5, 99, 13, 9]
      (by decide) (by decide) (by decide)).1).trans (by decide)

/-- Counterexample to C2 as stated: a single bucket chain holding 257
odd values, one more than `BULK_DELETE_LIMIT`, keeps its last odd value
after the bulk-delete pass, so the remaining set is not the exact set
of non-matching values. -/
theorem bulk_delete_not_all_matching_cex :
    (do_bulk_delete_locked_for odd_eval [odd_chain_257]).1 = [[513]] ∧ odd_eval 513 = true := by
  constructor
  · decide
  · decide

theorem delete_check_nodes_go_all (eval : Nat → Bool) (num_del : Nat) :
    ∀ (chain : List Nat) (dels : Nat), dels + chain.countP eval ≤ num_del →
      delete_check_nodes_go eval num_del dels chain
        = (chain.filter eval, chain.filter (fun v => !(eval v))) := by
  intro chain
  induction chain with
  | nil =>
    intro dels _
    simp [delete_check_nodes_go]
  | cons v rest ih =>
    intro dels hle
    by_cases hv : eval v = true
    · have hcnt : (v :: rest).countP eval = rest.countP eval + 1 :=
        List.countP_cons_of_pos _ _ hv
      by_cases hbreak : dels + 1 = num_del
      · have hz : rest.countP eval = 0 := by omega
        have hall : ∀ a ∈ rest, ¬ eval a = true := List.countP_eq_zero.mp hz
        have hfe : rest.filter eval = [] := List.filter_eq_nil_iff.mpr hall
        have hfn : rest.filter (fun v => !(eval v)) = rest :=
          List.filter_eq_self.mpr (fun a ha => by
            have := hall a ha
            cases hav : eval a
            · simp
            · exact absurd hav this)
        simp [delete_check_nodes_go, hv, hbreak, List.filter_cons, hfe, hfn]
      · have hrec := ih (dels + 1) (by omega)
        simp [delete_check_nodes_go, hv, hbreak, List.filter_cons, hrec]
    · have hv' : eval v = false := by
        cases hav : eval v
        · rfl
        · exact absurd hav hv
      have hcnt : (v :: rest).countP eval = rest.countP eval :=
        List.countP_cons_of_neg _ _ (by simp [hv'])
      have hrec := ih dels (by omega)
      simp [delete_check_nodes_go, hv', List.filter_cons, hrec]

/-- C2 (amended): the bulk-delete pass removes, from each bucket, at
most `BULK_DELETE_LIMIT` matching nodes; when every bucket chain holds
at most `BULK_DELETE_LIMIT` nodes matching the evaluator, the pass
removes exactly the matching nodes from every bucket — after inserting
0..9999 and bulk-deleting the odd values this leaves the exact even
set provided no bucket chain exceeds the limit in odd nodes. -/
theorem bulk_delete_removes_matching_upto_limit (eval : Nat → Bool) (buckets : List (List Nat))
    (h : ∀ c ∈ buckets, c.countP eval ≤ BULK_DELETE_LIMIT) :
    do_bulk_delete_locked_for eval buckets
      = (buckets.map (fun c => c.filter (fun v => !(eval v))),
         (buckets.map (fun c => c.filter eval)).flatten) := by
  induction buckets with
  | nil =>
    simp [do_bulk_delete_locked_for]
  | cons c rest ih =>
    have hc := h c (List.mem_cons_self c rest)
    have hrest := ih (fun b hb => h b (List.mem_cons_of_mem c hb))
    by_cases hdel : have_deletable eval c = true
    · have hdcn : delete_check_nodes eval BULK_DELETE_LIMIT c
          = (c.filter eval, c.filter (fun v => !(eval v))) :=
        delete_check_nodes_go_all eval BULK_DELETE_LIMIT c 0 (by omega)
      simp [do_bulk_delete_locked_for, hdel, hrest, hdcn]
    · have hall : ∀ a ∈ c, ¬ eval a = true := by
        simpa [have_deletable, List.any_eq_true] using hdel
      have hfe : c.filter eval = [] := List.filter_eq_nil_iff.mpr hall
      have hfn : c.filter (fun v => !(eval v)) = c :=
        List.filter_eq_self.mpr (fun a ha => by
          have := hall a ha
          cases hav : eval a
          · simp
          · exact absurd hav this)
      simp [do_bulk_delete_locked_for, hdel, hrest, hfe, hfn]

theorem bulk_delete_removes_matching_upto_limit_witness :
    do_bulk_delete_locked_for odd_eval [[1, 2, 3], [4]] = ([[2], [4]], [1, 3]) :=
  (bulk_delete_removes_matching_upto_limit odd_eval [[1, 2, 3], [4]] (by decide)).trans (by decide)

/-- Counterexample to C3 as stated: from a table of `log2_size` 5 with
`log2_size_limit` 7, a successful `grow(thread, 0)` publishes
`log2_size` 6, not the limit 7: `internal_grow` performs exactly one
doubling per call. -/
theorem grow_zero_not_to_limit_cex :
    grow cfg_id cht_5_7 0 = some (⟨6, List.replicate 64 [], 5, 7, false⟩, true) ∧
    (6 : Nat) ≠ cht_5_7.log2_size_limit := by
  constructor
  · decide
  · decide

/-- C3 (amended): a successful `grow(thread, 0)` treats
`_log2_size_limit` only as the bound of the request and performs a
single doubling: the published `log2_size` is the old one plus one, it
never exceeds the limit, and `_size_limit_reached` is set exactly when
the new size equals the limit (so the call reaches the limit only when
the table was one step below it). -/
theorem grow_zero_one_doubling (cfg : Cfg) (s s2 : CHT)
    (h : grow cfg s 0 = some (s2, true)) :
    s2.log2_size = s.log2_size + 1 ∧ s2.log2_size ≤ s.log2_size_limit ∧
    (s2.size_limit_reached = true ↔ s2.log2_size = s.log2_size_limit) := by
  rw [grow, if_pos rfl, internal_grow] at h
  split at h
  · simp at h
  · next h1 =>
    split at h
    · simp at h
    · next h2 =>
      split at h
      · simp at h
      · next es os ds heq =>
        have h3 := Option.some.inj h
        have h4 : s2 = { s with
            log2_size := s.log2_size + 1,
            buckets := es ++ os,
            size_limit_reached := decide (s.log2_size + 1 = s.log2_size_limit) } :=
          (congrArg Prod.fst h3).symm
        subst h4
        refine ⟨rfl, by simp; omega, ?_⟩
        simp [decide_eq_true_iff]

theorem grow_zero_one_doubling_witness :
    (⟨6, List.replicate 64 [], 5, 7, false⟩ : CHT).log2_size = cht_5_7.log2_size + 1 ∧
    (⟨6, List.replicate 64 [], 5, 7, false⟩ : CHT).log2_size ≤ cht_5_7.log2_size_limit ∧
    ((⟨6, List.replicate 64 [], 5, 7, false⟩ : CHT).size_limit_reached = true ↔
      (⟨6, List.replicate 64 [], 5, 7, false⟩ : CHT).log2_size = cht_5_7.log2_size_limit) :=
  grow_zero_one_doubling cfg_id cht_5_7 ⟨6, List.replicate 64 [], 5, 7, false⟩ (by decide)

theorem try_move_chain_dest (cfg : Cfg) (dest_size : Nat) :
    ∀ (c : List Nat) (dest : Nat → List Nat) (j : Nat),
      (try_move_chain cfg dest_size dest c).1 j =
        (c.filter (fun v => !(cfg.get_hash v).2 &&
            (bucket_idx_hash dest_size (cfg.get_hash v).1 == j))).reverse ++ dest j := by
  intro c
  induction c with
  | nil =>
    intro dest j
    simp [try_move_chain]
  | cons v rest ih =>
    intro dest j
    by_cases hd : (cfg.get_hash v).2 = true
    · simp [try_move_chain, hd, ih, List.filter_cons]
    · have hd' : (cfg.get_hash v).2 = false := by
        cases hv : (cfg.get_hash v).2
        · rfl
        · exact absurd hv hd
      by_cases hj : bucket_idx_hash dest_size (cfg.get_hash v).1 = j
      · simp only [try_move_chain, hd', Bool.false_eq_true, if_false, ih, List.filter_cons,
          hd', Bool.not_false, Bool.true_and, hj, beq_self_eq_true, if_true, List.reverse_cons,
          List.append_assoc, List.singleton_append]
      · simp only [try_move_chain, hd', Bool.false_eq_true, if_false, ih, List.filter_cons]
        have hbeq : (bucket_idx_hash dest_size (cfg.get_hash v).1 == j) = false := by
          simp [hj]
        simp [hd', hbeq, hj, Ne.symm hj]

theorem try_move_chain_events (cfg : Cfg) (dest_size : Nat) :
    ∀ (c : List Nat) (dest : Nat → List Nat),
      (∀ w, MoveEvent.destroy w ∉ (try_move_chain cfg dest_size dest c).2) ∧
      (∀ w, MoveEvent.unlink w ∈ (try_move_chain cfg dest_size dest c).2 ↔ w ∈ c) ∧
      (∀ i w, MoveEvent.link_dest i w ∈ (try_move_chain cfg dest_size dest c).2 →
        (cfg.get_hash w).2 = false ∧ i = bucket_idx_hash dest_size (cfg.get_hash w).1) := by
  intro c
  induction c with
  | nil =>
    intro dest
    simp [try_move_chain]
  | cons v rest ih =>
    intro dest
    by_cases hd : (cfg.get_hash v).2 = true
    · have ihd := ih dest
      have htr : (try_move_chain cfg dest_size dest (v :: rest)).2
          = MoveEvent.unlink v :: (try_move_chain cfg dest_size dest rest).2 := by
        simp [try_move_chain, hd]
      refine ⟨fun w => ?_, fun w => ?_, fun i w hmem => ?_⟩
      · rw [htr]
        simp only [List.mem_cons, not_or]
        exact ⟨by simp, ihd.1 w⟩
      · rw [htr]
        simp [List.mem_cons, ihd.2.1 w]
      · rw [htr] at hmem
        rcases List.mem_cons.mp hmem with hw | hw
        · cases hw
        · exact ihd.2.2 i w hw
    · have hd' : (cfg.get_hash v).2 = false := by
        cases hv : (cfg.get_hash v).2
        · rfl
        · exact absurd hv hd
      have ihd := ih (fun j =>
        if j = bucket_idx_hash dest_size (cfg.get_hash v).1 then v :: dest j else dest j)
      have htr : (try_move_chain cfg dest_size dest (v :: rest)).2
          = MoveEvent.unlink v ::
            MoveEvent.link_dest (bucket_idx_hash dest_size (cfg.get_hash v).1) v ::
            (try_move_chain cfg dest_size
              (fun j => if j = bucket_idx_hash dest_size (cfg.get_hash v).1
                then v :: dest j else dest j) rest).2 := by
        simp [try_move_chain, hd']
      refine ⟨fun w => ?_, fun w => ?_, fun i w hmem => ?_⟩
      · rw [htr]
        simp only [List.mem_cons, not_or]
        exact ⟨by simp, by simp, ihd.1 w⟩
      · rw [htr]
        simp [List.mem_cons, ihd.2.1 w]
      · rw [htr] at hmem
        rcases List.mem_cons.mp hmem with hw | hw
        · cases hw
        · rcases List.mem_cons.mp hw with hw2 | hw2
          · cases hw2
            exact ⟨hd', rfl⟩
          · exact ihd.2.2 i w hw2

/-- C10: in `try_move_nodes_to`, every source node whose hash reports
dead is unlinked from its source bucket (the drain loop pops each
bucket until its head is null, so the source table ends empty) but is
neither linked into the destination table nor passed to
`Node::destroy_node`: each destination bucket receives exactly the
live nodes hashing to it, the trace holds an unlink for every source
node and a link only for live nodes, and no destroy event ever
occurs — the dead nodes are dropped without being freed. -/
theorem try_move_nodes_to_spec (cfg : Cfg) (dest_size : Nat) (dest : Nat → List Nat)
    (buckets : List (List Nat)) :
    (∀ j, (try_move_nodes_to cfg dest_size dest buckets).1 j =
        (buckets.flatten.filter (fun v => !(cfg.get_hash v).2 &&
            (bucket_idx_hash dest_size (cfg.get_hash v).1 == j))).reverse ++ dest j) ∧
    (∀ w, MoveEvent.destroy w ∉ (try_move_nodes_to cfg dest_size dest buckets).2) ∧
    (∀ w, MoveEvent.unlink w ∈ (try_move_nodes_to cfg dest_size dest buckets).2 ↔
        w ∈ buckets.flatten) ∧
    (∀ i w, MoveEvent.link_dest i w ∈ (try_move_nodes_to cfg dest_size dest buckets).2 →
        (cfg.get_hash w).2 = false ∧ i = bucket_idx_hash dest_size (cfg.get_hash w).1) := by
  induction buckets generalizing dest with
  | nil =>
    simp [try_move_nodes_to]
  | cons c rest ih =>
    have ihc := ih ((try_move_chain cfg dest_size dest c).1)
    have hch := try_move_chain_events cfg dest_size c dest
    refine ⟨fun j => ?_, fun w => ?_, fun w => ?_, fun i w hmem => ?_⟩
    · simp only [try_move_nodes_to, ihc.1 j, try_move_chain_dest cfg dest_size c dest j,
        List.flatten_cons, List.filter_append, List.reverse_append, List.append_assoc]
    · simp only [try_move_nodes_to, List.mem_append]
      rintro (hw | hw)
      · exact hch.1 w hw
      · exact ihc.2.1 w hw
    · rw [List.flatten_cons, List.mem_append]
      rw [show (try_move_nodes_to cfg dest_size dest (c :: rest)).2
          = (try_move_chain cfg dest_size dest c).2
            ++ (try_move_nodes_to cfg dest_size ((try_move_chain cfg dest_size dest c).1) rest).2
          from rfl, List.mem_append]
      rw [hch.2.1 w, ihc.2.2.1 w]
    · simp only [try_move_nodes_to, List.mem_append] at hmem
      rcases hmem with hw | hw
      · exact hch.2.2 i w hw
      · exact ihc.2.2.2 i w hw

theorem try_move_nodes_to_spec_witness :
    (try_move_nodes_to cfg_dead4 2 dest_empty [[1, 4], [2]]).1 0 = [2] ∧
    MoveEvent.destroy 4 ∉ (try_move_nodes_to cfg_dead4 2 dest_empty [[1, 4], [2]]).2 :=
  ⟨((try_move_nodes_to_spec cfg_dead4 2 dest_empty [[1, 4], [2]]).1 0).trans (by decide),
   (try_move_nodes_to_spec cfg_dead4 2 dest_empty [[1, 4], [2]]).2.1 4⟩
